import Mathlib

/-!
Shallow embedding of the statistics core of the public-baseball repository:
the movement-consistency score, percentile and rank computations
(src/shape_consistency_app.py, src/mvmt_profile_distributions_app.py),
the polarity adjustment of horizontal movement by handedness, and the
rate-stat and zone computations (src/player_profile_app.py).
Pandas NaN results (sample std of fewer than two rows) are modelled as
none in an Option; floating point is modelled with the reals.
-/

namespace PublicBaseball

/-- One pitch observation row as used by the movement apps: the columns
kept by the loaders are player name, pitch type (already mapped to full
text), horizontal movement pfx_x, vertical movement pfx_z, and release
speed. -/
structure Obs where
  player_name : String
  pitch_type : String
  pfx_x : ℝ
  pfx_z : ℝ
  release_speed : ℝ

/-- Fastball-like pitch types, from mvmt_profile_distributions_app.py line 25. -/
def fastballs : List String :=
  ["Four-Seam Fastball", "Sinker", "Cutter", "Splitter", "Changeup"]

/-- Breaking-ball-like pitch types, from mvmt_profile_distributions_app.py line 26. -/
def breaking_balls : List String :=
  ["Slider", "Curveball", "Knuckle Curve", "Sweeper", "Sweeping Curve", "Slow Curve"]

/-- Pitcher handedness, the p_throws column (values R and L). -/
inductive Handedness where
  | R : Handedness
  | L : Handedness
deriving DecidableEq

/-- Per-row effect of the two sequential .loc assignments for a right-handed
pitcher (mvmt_profile_distributions_app.py lines 83 to 84): fastball-like rows
get pfx_x replaced by its absolute value, then breaking-ball-like rows get
pfx_x replaced by the negated absolute value of the current pfx_x. -/
def adjustR (o : Obs) : Obs :=
  let o1 := if o.pitch_type ∈ fastballs then { o with pfx_x := |o.pfx_x| } else o
  if o1.pitch_type ∈ breaking_balls then { o1 with pfx_x := -|o1.pfx_x| } else o1

/-- Per-row effect for a left-handed pitcher (lines 86 to 87): fastball-like
rows get the negated absolute value, breaking-ball-like rows the absolute
value. -/
def adjustL (o : Obs) : Obs :=
  let o1 := if o.pitch_type ∈ fastballs then { o with pfx_x := -|o.pfx_x| } else o
  if o1.pitch_type ∈ breaking_balls then { o1 with pfx_x := |o1.pfx_x| } else o1

/-- The polarity adjustment applied to the whole pitcher table
(mvmt_profile_distributions_app.py lines 81 to 87), branching on the
handedness value. -/
def adjusted_pitcher_data (hand : Handedness) (rows : List Obs) : List Obs :=
  match hand with
  | Handedness.R => rows.map adjustR
  | Handedness.L => rows.map adjustL

/-- Per-row adjustment as a single function of the handedness. -/
def adjustObs (hand : Handedness) (o : Obs) : Obs :=
  match hand with
  | Handedness.R => adjustR o
  | Handedness.L => adjustL o

/-- Arithmetic mean of a list of reals, as pandas Series.mean. -/
noncomputable def mean (xs : List ℝ) : ℝ := xs.sum / xs.length

/-- Sample variance with the n minus 1 denominator, the square of pandas
Series.std with its default ddof of 1. -/
noncomputable def sampleVar (xs : List ℝ) : ℝ :=
  ((xs.map fun x => (x - mean xs) ^ 2).sum) / ((xs.length : ℝ) - 1)

/-- Pandas Series.std with ddof 1: the sample standard deviation when the
series has at least two entries, and NaN otherwise. NaN is modelled as none. -/
noncomputable def sampleStd (xs : List ℝ) : Option ℝ :=
  if 2 ≤ xs.length then some (Real.sqrt (sampleVar xs)) else none

/-- The two-metric consistency score of shape_consistency_app.py lines 80
to 82: sqrt of horizontal std squared plus vertical std squared, with NaN
(modelled as none) propagating from an undefined std. -/
noncomputable def overall_consistency_score (g : List Obs) : Option ℝ :=
  Option.bind (sampleStd (g.map Obs.pfx_x)) fun sx =>
    Option.bind (sampleStd (g.map Obs.pfx_z)) fun sz =>
      some (Real.sqrt (sx ^ 2 + sz ^ 2))

/-- The three-metric consistency score of
mvmt_profile_distributions_app.py lines 127 to 135: the velocity std is
added inside the square root. -/
noncomputable def all_pitchers_consistency_score (g : List Obs) : Option ℝ :=
  Option.bind (sampleStd (g.map Obs.pfx_x)) fun sx =>
    Option.bind (sampleStd (g.map Obs.pfx_z)) fun sz =>
      Option.bind (sampleStd (g.map Obs.release_speed)) fun sv =>
        some (Real.sqrt (sx ^ 2 + sz ^ 2 + sv ^ 2))

/-- The C1 example group: horizontal movement values 0 and 2, vertical
movement values 0 and 0. -/
def exampleGroup : List Obs :=
  [{ player_name := "P", pitch_type := "Slider", pfx_x := 0, pfx_z := 0,
     release_speed := 0 },
   { player_name := "P", pitch_type := "Slider", pfx_x := 2, pfx_z := 0,
     release_speed := 0 }]

/-- A single observation used as a concrete one-row group. -/
def soloObs : Obs :=
  { player_name := "P", pitch_type := "Slider", pfx_x := 1, pfx_z := 2,
    release_speed := 90 }

/-- Uniform translation of the movement fields of one observation. -/
def transObs (a b : ℝ) (o : Obs) : Obs :=
  { o with pfx_x := o.pfx_x + a, pfx_z := o.pfx_z + b }

/-- Uniform scaling of the movement fields of one observation, as the feet
to inches conversion of mvmt_profile_distributions_app.py lines 54 to 55. -/
def scaleObs (c : ℝ) (o : Obs) : Obs :=
  { o with pfx_x := c * o.pfx_x, pfx_z := c * o.pfx_z }

/-- The percentile computation of mvmt_profile_distributions_app.py lines
138 to 140: the mean over the peer scores of the indicator that the target
score is at most the peer score, times 100. Polymorphic in the ordered
score type, with the rational output pandas mean of a boolean series has. -/
def calculate_percentile {α : Type} [LinearOrder α] (target : α)
    (peers : List α) : ℚ :=
  (((peers.map fun s => if target ≤ s then (1 : ℚ) else 0).sum) /
    (peers.length : ℚ)) * 100

/-- Pandas Series.rank with its default average method, applied to the
score column in shape_consistency_app.py line 95: the rank of a value is
the number of strictly smaller entries plus half of one more than the
number of equal entries, averaging the ordinal positions over a tie group. -/
def rankAvg {α : Type} [LinearOrder α] [DecidableEq α] (scores : List α)
    (t : α) : ℚ :=
  ((scores.countP fun x => decide (x < t)) : ℚ) +
    (((scores.countP fun x => decide (x = t)) : ℚ) + 1) / 2

/-- One pitch row of player_profile_app.py as far as the rate and zone
statistics read it: the outcome event string and the zone code. -/
structure PlayerRow where
  events : String
  zone : ℤ

/-- The K minus BB rate of player_profile_app.py lines 52 to 56: strikeout
count minus walk count over the total pitch count times 100, and 0 when the
total count is 0. -/
def calculate_kbb_rate (rows : List PlayerRow) : ℚ :=
  if 0 < rows.length then
    (((rows.countP fun r => decide (r.events = "strikeout")) : ℚ) -
      ((rows.countP fun r => decide (r.events = "walk")) : ℚ)) /
      (rows.length : ℚ) * 100
  else 0

/-- The value the results table of player_profile_app.py line 173 computes
for the Zone percentage: the mean of the zone codes. -/
def results_zone_pct (rows : List PlayerRow) : ℚ :=
  ((rows.map fun r => (r.zone : ℚ)).sum) / (rows.length : ℚ)

/-- The zone rate as the spec defines it, for comparison with the code:
the count of pitches whose zone code lies in 1 through 9, over the total
pitch count, times 100. -/
def zone_rate_spec (rows : List PlayerRow) : ℚ :=
  ((rows.countP fun r => decide (1 ≤ r.zone) && decide (r.zone ≤ 9)) : ℚ) /
    (rows.length : ℚ) * 100

/-- A shorthand for a pitch row with a given outcome event and zone code 5. -/
def evRow (e : String) : PlayerRow := { events := e, zone := 5 }

/-- The C7 example pitch set: 10 pitches, 3 strikeouts, 1 walk. -/
def kbbExample : List PlayerRow :=
  [evRow ("strikeout"), evRow ("strikeout"), evRow ("strikeout"), evRow ("walk"),
   evRow ("field_out"), evRow ("field_out"), evRow ("single"), evRow ("double"),
   evRow ("home_run"), evRow ("force_out")]

/-- The C8 failing input: two pitches, both with zone code 5 (inside the
1 to 9 strike zone). -/
def zoneExample : List PlayerRow :=
  [{ events := "ball", zone := 5 }, { events := "ball", zone := 5 }]

theorem adjusted_pitcher_data_eq_map (hand : Handedness) (rows : List Obs) :
    adjusted_pitcher_data hand rows = rows.map (adjustObs hand) := by
  cases hand <;> rfl

/-- The two pitch-category lists are disjoint. -/
theorem fastballs_disjoint_breaking :
    ∀ t, t ∈ fastballs → t ∉ breaking_balls := by decide

/-- C4: for right-handed throwers the adjustment forces fastball-like
horizontal movement to its absolute value (nonnegative) and breaking-ball-like
movement to the negated absolute value (nonpositive); for left-handed
throwers the signs are exactly mirrored. -/
theorem C4_adjust_polarity_signs (o : Obs) :
    (o.pitch_type ∈ fastballs →
      (adjustObs Handedness.R o).pfx_x = |o.pfx_x| ∧
      0 ≤ (adjustObs Handedness.R o).pfx_x ∧
      (adjustObs Handedness.L o).pfx_x = -|o.pfx_x| ∧
      (adjustObs Handedness.L o).pfx_x ≤ 0) ∧
    (o.pitch_type ∈ breaking_balls →
      (adjustObs Handedness.R o).pfx_x = -|o.pfx_x| ∧
      (adjustObs Handedness.R o).pfx_x ≤ 0 ∧
      (adjustObs Handedness.L o).pfx_x = |o.pfx_x| ∧
      0 ≤ (adjustObs Handedness.L o).pfx_x) := by
  constructor
  · intro hf
    have hnb : o.pitch_type ∉ breaking_balls := fastballs_disjoint_breaking _ hf
    simp [adjustObs, adjustR, adjustL, hf, hnb, abs_nonneg, neg_nonpos]
  · intro hb
    by_cases hf : o.pitch_type ∈ fastballs
    · exact absurd hb (fastballs_disjoint_breaking _ hf)
    · simp [adjustObs, adjustR, adjustL, hf, hb, abs_nonneg, neg_nonpos]

/-- C4 witness: a concrete right-handed fastball observation with negative raw
pfx_x gets a nonnegative adjusted value equal to the absolute value. -/
theorem C4_adjust_polarity_signs_witness :
    ("Four-Seam Fastball" ∈ fastballs) ∧
    (adjustObs Handedness.R
      { player_name := "P", pitch_type := "Four-Seam Fastball",
        pfx_x := -3, pfx_z := 1, release_speed := 90 }).pfx_x = |(-3 : ℝ)| := by
  refine ⟨by decide, ?_⟩
  exact ((C4_adjust_polarity_signs
    { player_name := "P", pitch_type := "Four-Seam Fastball",
      pfx_x := -3, pfx_z := 1, release_speed := 90 }).1 (by decide)).1

/-- C9: the adjustment modifies only pfx_x; every other field is unchanged
for every observation and both handedness values, and an observation whose
pitch type is in neither category list is returned entirely unchanged. -/
theorem C9_adjust_polarity_frame (hand : Handedness) (o : Obs) :
    ((adjustObs hand o).player_name = o.player_name ∧
     (adjustObs hand o).pitch_type = o.pitch_type ∧
     (adjustObs hand o).pfx_z = o.pfx_z ∧
     (adjustObs hand o).release_speed = o.release_speed) ∧
    (o.pitch_type ∉ fastballs → o.pitch_type ∉ breaking_balls →
      adjustObs hand o = o) := by
  cases hand <;>
  · constructor
    · simp only [adjustObs, adjustR, adjustL]
      by_cases hf : o.pitch_type ∈ fastballs <;>
        by_cases hb : o.pitch_type ∈ breaking_balls <;>
        simp [hf, hb]
    · intro hf hb
      simp [adjustObs, adjustR, adjustL, hf, hb]

/-- C9 witness: a concrete knuckleball observation is returned unchanged by
the right-handed adjustment. -/
theorem C9_adjust_polarity_frame_witness :
    ("Knuckleball" ∉ fastballs) ∧ ("Knuckleball" ∉ breaking_balls) ∧
    adjustObs Handedness.R
      { player_name := "P", pitch_type := "Knuckleball",
        pfx_x := -3, pfx_z := 1, release_speed := 70 } =
      { player_name := "P", pitch_type := "Knuckleball",
        pfx_x := -3, pfx_z := 1, release_speed := 70 } := by
  refine ⟨by decide, by decide, ?_⟩
  exact (C9_adjust_polarity_frame Handedness.R
    { player_name := "P", pitch_type := "Knuckleball",
      pfx_x := -3, pfx_z := 1, release_speed := 70 }).2 (by decide) (by decide)

/-- Applying the per-row adjustment twice equals applying it once. -/
theorem adjustObs_idem (hand : Handedness) (o : Obs) :
    adjustObs hand (adjustObs hand o) = adjustObs hand o := by
  cases hand <;>
  · simp only [adjustObs, adjustR, adjustL]
    by_cases hf : o.pitch_type ∈ fastballs <;>
      by_cases hb : o.pitch_type ∈ breaking_balls <;>
      simp [hf, hb, abs_abs, abs_neg]

/-- C10: the polarity adjustment is idempotent on whole tables, for both
handedness values. -/
theorem C10_adjust_polarity_idempotent (hand : Handedness) (rows : List Obs) :
    adjusted_pitcher_data hand (adjusted_pitcher_data hand rows) =
      adjusted_pitcher_data hand rows := by
  simp only [adjusted_pitcher_data_eq_map, List.map_map]
  exact List.map_congr_left fun o _ => adjustObs_idem hand o

theorem mean_replicate (n : ℕ) (hn : n ≠ 0) (x : ℝ) :
    mean (List.replicate n x) = x := by
  have h : (n : ℝ) ≠ 0 := Nat.cast_ne_zero.mpr hn
  simp only [mean, List.sum_replicate, List.length_replicate, nsmul_eq_mul]
  rw [mul_comm, mul_div_assoc, div_self h, mul_one]

theorem sampleVar_replicate (n : ℕ) (hn : n ≠ 0) (x : ℝ) :
    sampleVar (List.replicate n x) = 0 := by
  simp [sampleVar, List.map_replicate, mean_replicate n hn, sub_self]

/-- Unfolding of the two-metric score on a group with at least two rows. -/
theorem overall_consistency_score_of_le (g : List Obs) (h : 2 ≤ g.length) :
    overall_consistency_score g =
      some (Real.sqrt (Real.sqrt (sampleVar (g.map Obs.pfx_x)) ^ 2 +
        Real.sqrt (sampleVar (g.map Obs.pfx_z)) ^ 2)) := by
  simp [overall_consistency_score, sampleStd, List.length_map, h]

/-- Unfolding of the three-metric score on a group with at least two rows. -/
theorem all_pitchers_consistency_score_of_le (g : List Obs) (h : 2 ≤ g.length) :
    all_pitchers_consistency_score g =
      some (Real.sqrt (Real.sqrt (sampleVar (g.map Obs.pfx_x)) ^ 2 +
        Real.sqrt (sampleVar (g.map Obs.pfx_z)) ^ 2 +
        Real.sqrt (sampleVar (g.map Obs.release_speed)) ^ 2)) := by
  simp [all_pitchers_consistency_score, sampleStd, List.length_map, h]

/-- C1: on a group of at least two observations, the two-metric score is
sqrt of the sum of the squared sample standard deviations of horizontal and
vertical movement, and the three-metric variant adds the squared velocity
std inside the root; a group of identical repeated observations scores 0,
and horizontal values 0 and 2 with vertical values 0 and 0 score sqrt 2. -/
theorem C1_compute_consistency (g : List Obs) (h : 2 ≤ g.length)
    (o : Obs) (n : ℕ) (hn : 2 ≤ n) :
    overall_consistency_score g =
      some (Real.sqrt (Real.sqrt (sampleVar (g.map Obs.pfx_x)) ^ 2 +
        Real.sqrt (sampleVar (g.map Obs.pfx_z)) ^ 2)) ∧
    all_pitchers_consistency_score g =
      some (Real.sqrt (Real.sqrt (sampleVar (g.map Obs.pfx_x)) ^ 2 +
        Real.sqrt (sampleVar (g.map Obs.pfx_z)) ^ 2 +
        Real.sqrt (sampleVar (g.map Obs.release_speed)) ^ 2)) ∧
    overall_consistency_score (List.replicate n o) = some 0 ∧
    all_pitchers_consistency_score (List.replicate n o) = some 0 ∧
    overall_consistency_score exampleGroup = some (Real.sqrt 2) := by
  have hn0 : n ≠ 0 := by omega
  have hrep : 2 ≤ (List.replicate n o).length := by simpa using hn
  refine ⟨overall_consistency_score_of_le g h,
    all_pitchers_consistency_score_of_le g h, ?_, ?_, ?_⟩
  · rw [overall_consistency_score_of_le _ hrep]
    simp [List.map_replicate, sampleVar_replicate n hn0]
  · rw [all_pitchers_consistency_score_of_le _ hrep]
    simp [List.map_replicate, sampleVar_replicate n hn0]
  · have hlen : 2 ≤ exampleGroup.length := by simp [exampleGroup]
    rw [overall_consistency_score_of_le _ hlen]
    have hx : sampleVar (exampleGroup.map Obs.pfx_x) = 2 := by
      norm_num [exampleGroup, sampleVar, mean]
    have hz : sampleVar (exampleGroup.map Obs.pfx_z) = 0 := by
      norm_num [exampleGroup, sampleVar, mean]
    rw [hx, hz]
    rw [Real.sq_sqrt (by norm_num : (0:ℝ) ≤ 2)]
    simp

/-- C1 witness: the example group has two rows, and instantiating the
theorem there evaluates the score of a two-row identical group to 0 and of
the example group to sqrt 2. -/
theorem C1_compute_consistency_witness :
    (2 ≤ exampleGroup.length) ∧ (2 ≤ 2) ∧
    overall_consistency_score (List.replicate 2 soloObs) = some 0 ∧
    overall_consistency_score exampleGroup = some (Real.sqrt 2) := by
  refine ⟨by simp [exampleGroup], by norm_num, ?_, ?_⟩
  · exact (C1_compute_consistency exampleGroup (by simp [exampleGroup])
      soloObs 2 (by norm_num)).2.2.1
  · exact (C1_compute_consistency exampleGroup (by simp [exampleGroup])
      soloObs 2 (by norm_num)).2.2.2.2

/-- C5: on a group with fewer than two observations both consistency scores
are the undefined value none (modelling NaN), and in particular neither is
the number 0. -/
theorem C5_insufficient_sample (g : List Obs) (h : g.length < 2) :
    overall_consistency_score g = none ∧
    all_pitchers_consistency_score g = none ∧
    overall_consistency_score g ≠ some 0 ∧
    all_pitchers_consistency_score g ≠ some 0 := by
  have hx : sampleStd (g.map Obs.pfx_x) = none := by
    simp [sampleStd, List.length_map]; omega
  have h1 : overall_consistency_score g = none := by
    simp [overall_consistency_score, hx]
  have h2 : all_pitchers_consistency_score g = none := by
    simp [all_pitchers_consistency_score, hx]
  exact ⟨h1, h2, by simp [h1], by simp [h2]⟩

/-- C5 witness: a one-row group evaluates to none on both scores. -/
theorem C5_insufficient_sample_witness :
    (([soloObs] : List Obs).length < 2) ∧
    overall_consistency_score [soloObs] = none := by
  exact ⟨by simp, (C5_insufficient_sample _ (by simp)).1⟩

/-- C7: the K minus BB rate is the strikeout count minus the walk count over
the total pitch count times 100, it is exactly 0 on an empty pitch set, and
the 10-pitch example with 3 strikeouts and 1 walk evaluates to 20. -/
theorem C7_kbb_rate (rows : List PlayerRow) :
    (0 < rows.length →
      calculate_kbb_rate rows =
        (((rows.countP fun r => decide (r.events = "strikeout")) : ℚ) -
          ((rows.countP fun r => decide (r.events = "walk")) : ℚ)) /
          (rows.length : ℚ) * 100) ∧
    calculate_kbb_rate ([] : List PlayerRow) = 0 ∧
    calculate_kbb_rate kbbExample = 20 := by
  refine ⟨fun h => by simp [calculate_kbb_rate, h], by simp [calculate_kbb_rate], ?_⟩
  have h1 : (kbbExample.countP fun r => decide (r.events = "strikeout")) = 3 := by
    decide
  have h2 : (kbbExample.countP fun r => decide (r.events = "walk")) = 1 := by
    decide
  have h3 : kbbExample.length = 10 := by decide
  norm_num [calculate_kbb_rate, h1, h2, h3]

/-- C7 witness: the example pitch set is nonempty and instantiating the
theorem there gives both the count formula and the value 20. -/
theorem C7_kbb_rate_witness :
    (0 < kbbExample.length) ∧
    calculate_kbb_rate kbbExample =
      (((kbbExample.countP fun r => decide (r.events = "strikeout")) : ℚ) -
        ((kbbExample.countP fun r => decide (r.events = "walk")) : ℚ)) /
        (kbbExample.length : ℚ) * 100 ∧
    calculate_kbb_rate kbbExample = 20 := by
  exact ⟨by decide, (C7_kbb_rate kbbExample).1 (by decide),
    (C7_kbb_rate kbbExample).2.2⟩

/-- C8: the Zone percentage in the results table is the mean of the raw zone
codes, not the fraction of pitches with zone code in 1 through 9 times 100;
on two pitches both with zone code 5 the code produces 5 while the spec
formula produces 100. -/
theorem C8_zone_divergence :
    results_zone_pct zoneExample = 5 ∧
    zone_rate_spec zoneExample = 100 ∧
    results_zone_pct zoneExample ≠ zone_rate_spec zoneExample := by
  have hs : ((zoneExample.map fun r => (r.zone : ℚ)).sum) = 10 := by
    norm_num [zoneExample]
  have hc : (zoneExample.countP fun r =>
      decide (1 ≤ r.zone) && decide (r.zone ≤ 9)) = 2 := by decide
  have hl : zoneExample.length = 2 := by decide
  refine ⟨?_, ?_, ?_⟩ <;> norm_num [results_zone_pct, zone_rate_spec, hs, hc, hl]

/-- Sum of a rational indicator over a list equals the count of entries
satisfying the predicate. -/
theorem sum_indicator_eq_countP {α : Type} (p : α → Prop) [DecidablePred p]
    (xs : List α) :
    ((xs.map fun s => if p s then (1 : ℚ) else 0).sum) =
      ((xs.countP fun s => decide (p s)) : ℚ) := by
  induction xs with
  | nil => simp
  | cons a l ih =>
    by_cases h : p a
    · simp only [List.map_cons, List.sum_cons, List.countP_cons, h, ih,
        if_true, decide_eq_true_eq]
      simp [h]
      ring
    · simp [List.countP_cons, h, ih]

/-- C2: the percentile equals the count of peer scores at least the target
score over the peer count times 100; a target below or equal to every peer
score has percentile 100, and a target above every peer score that appears
exactly once among the peers (the worst with no ties) has percentile 100
over the peer count. -/
theorem C2_calculate_percentile {α : Type} [LinearOrder α] [DecidableEq α]
    (peers : List α) (hne : peers ≠ []) :
    (∀ t : α, calculate_percentile t peers =
      ((peers.countP fun s => decide (t ≤ s)) : ℚ) / (peers.length : ℚ) * 100) ∧
    (∀ t : α, (∀ s ∈ peers, t ≤ s) → calculate_percentile t peers = 100) ∧
    (∀ t : α, (∀ s ∈ peers, s ≤ t) →
      (peers.countP fun s => decide (s = t)) = 1 →
      calculate_percentile t peers = 100 / (peers.length : ℚ)) := by
  have hpos : 0 < peers.length := List.length_pos.mpr hne
  have hlen : (peers.length : ℚ) ≠ 0 := Nat.cast_ne_zero.mpr hpos.ne'
  have hgen : ∀ t : α, calculate_percentile t peers =
      ((peers.countP fun s => decide (t ≤ s)) : ℚ) / (peers.length : ℚ) * 100 := by
    intro t
    unfold calculate_percentile
    rw [sum_indicator_eq_countP (fun s => t ≤ s) peers]
  refine ⟨hgen, ?_, ?_⟩
  · intro t hbest
    rw [hgen t]
    have hcount : (peers.countP fun s => decide (t ≤ s)) = peers.length := by
      rw [List.countP_eq_length]
      intro a ha
      simpa using hbest a ha
    rw [hcount]
    field_simp
  · intro t hworst hone
    rw [hgen t]
    have hcount : (peers.countP fun s => decide (t ≤ s)) =
        (peers.countP fun s => decide (s = t)) := by
      apply List.countP_congr
      intro a ha
      simp only [decide_eq_true_eq]
      exact ⟨fun h1 => le_antisymm (hworst a ha) h1, fun h1 => le_of_eq h1.symm⟩
    rw [hcount, hone]
    push_cast
    ring

/-- C2 witness: among the peer scores 1, 2, 3 the target 1 (the unique best)
has percentile 100 and the target 3 (the unique worst) has percentile 100
over 3. -/
theorem C2_calculate_percentile_witness :
    (([1, 2, 3] : List ℚ) ≠ []) ∧
    calculate_percentile (1 : ℚ) [1, 2, 3] = 100 ∧
    calculate_percentile (3 : ℚ) [1, 2, 3] = 100 / 3 := by
  refine ⟨by decide, ?_, ?_⟩
  · exact (C2_calculate_percentile ([1, 2, 3] : List ℚ) (by decide)).2.1 1
      (by decide)
  · exact (C2_calculate_percentile ([1, 2, 3] : List ℚ) (by decide)).2.2 3
      (by decide) (by decide)

/-- Helper: entries below s plus entries equal to s are at most the entries
below t, when s is below t. -/
theorem countP_lt_add_eq_le {α : Type} [LinearOrder α] [DecidableEq α]
    (s t : α) (hst : s < t) (l : List α) :
    l.countP (fun x => decide (x < s)) + l.countP (fun x => decide (x = s)) ≤
      l.countP (fun x => decide (x < t)) := by
  induction l with
  | nil => simp
  | cons a l ih =>
    simp only [List.countP_cons]
    rcases lt_trichotomy a s with h | h | h
    · have hat : a < t := h.trans hst
      have hne : a ≠ s := ne_of_lt h
      simp [h, hne, hat]
      omega
    · subst h
      simp [lt_irrefl, hst]
      omega
    · have h1 : ¬ a < s := not_lt.mpr h.le
      have h2 : a ≠ s := ne_of_gt h
      by_cases h3 : a < t
      · simp [h1, h2, h3]
        omega
      · simp [h1, h2, h3]
        omega

/-- C3: the average-method rank is monotone (a strictly lower score never
gets a larger rank), tied scores receive the same rank, the unique lowest
score gets rank 1, and on the concrete score list 1, 1, 3 the tied lowest
scores share the average rank 3 over 2 while the highest gets rank 3. -/
theorem C3_rank_within_pitch_type {α : Type} [LinearOrder α] [DecidableEq α]
    (scores : List α) (s t : α) :
    (s < t → rankAvg scores s ≤ rankAvg scores t) ∧
    (s = t → rankAvg scores s = rankAvg scores t) ∧
    ((∀ x ∈ scores, s < x ∨ x = s) →
      (scores.countP fun x => decide (x = s)) = 1 → rankAvg scores s = 1) ∧
    rankAvg ([1, 1, 3] : List ℚ) 1 = 3 / 2 ∧
    rankAvg ([1, 1, 3] : List ℚ) 3 = 3 := by
  refine ⟨?_, ?_, ?_, ?_, ?_⟩
  · intro hst
    have key := countP_lt_add_eq_le s t hst scores
    unfold rankAvg
    have hk : ((scores.countP fun x => decide (x < s)) : ℚ) +
        ((scores.countP fun x => decide (x = s)) : ℚ) ≤
        ((scores.countP fun x => decide (x < t)) : ℚ) := by exact_mod_cast key
    have h1 : (0 : ℚ) ≤ ((scores.countP fun x => decide (x = s)) : ℚ) := by
      positivity
    have h2 : (0 : ℚ) ≤ ((scores.countP fun x => decide (x = t)) : ℚ) := by
      positivity
    linarith
  · intro h
    rw [h]
  · intro hmin hone
    have hzero : (scores.countP fun x => decide (x < s)) = 0 := by
      rw [List.countP_eq_zero]
      intro a ha
      rcases hmin a ha with h | h
      · simp [not_lt.mpr h.le]
      · simp [h]
    unfold rankAvg
    rw [hzero, hone]
    norm_num
  · norm_num [rankAvg, List.countP_cons]
  · norm_num [rankAvg, List.countP_cons]

/-- C3 witness: on the concrete score list 0, 2, 2 the rank of the strictly
lower score 0 is at most the rank of 2, and 0 is the unique lowest score so
its rank is 1. -/
theorem C3_rank_within_pitch_type_witness :
    ((0 : ℚ) < 2) ∧
    rankAvg ([0, 2, 2] : List ℚ) 0 ≤ rankAvg ([0, 2, 2] : List ℚ) 2 ∧
    (∀ x ∈ ([0, 2, 2] : List ℚ), 0 < x ∨ x = 0) ∧
    (([0, 2, 2] : List ℚ).countP fun x => decide (x = 0)) = 1 ∧
    rankAvg ([0, 2, 2] : List ℚ) 0 = 1 := by
  refine ⟨by norm_num, ?_, by decide, by decide, ?_⟩
  · exact (C3_rank_within_pitch_type ([0, 2, 2] : List ℚ) 0 2).1 (by norm_num)
  · exact (C3_rank_within_pitch_type ([0, 2, 2] : List ℚ) 0 2).2.2.1
      (by decide) (by decide)

theorem sum_map_add_const (xs : List ℝ) (c : ℝ) :
    ((xs.map fun x => x + c).sum) = xs.sum + xs.length * c := by
  induction xs with
  | nil => simp
  | cons a l ih =>
    simp only [List.map_cons, List.sum_cons, List.length_cons, ih]
    push_cast
    ring

theorem sum_map_mul_const {α : Type} (xs : List α) (c : ℝ) (f : α → ℝ) :
    ((xs.map fun x => c * f x).sum) = c * ((xs.map f).sum) := by
  induction xs with
  | nil => simp
  | cons a l ih =>
    simp only [List.map_cons, List.sum_cons, ih]
    ring

theorem mean_map_add (xs : List ℝ) (c : ℝ) (h : xs ≠ []) :
    mean (xs.map fun x => x + c) = mean xs + c := by
  have hn : (xs.length : ℝ) ≠ 0 :=
    Nat.cast_ne_zero.mpr (List.length_pos.mpr h).ne'
  simp only [mean, List.length_map, sum_map_add_const]
  field_simp
  ring

theorem mean_map_mul (xs : List ℝ) (c : ℝ) :
    mean (xs.map fun x => c * x) = c * mean xs := by
  have hs : ((xs.map fun x => c * x).sum) = c * xs.sum := by
    simpa using sum_map_mul_const xs c id
  simp only [mean, List.length_map, hs, mul_div_assoc]

/-- Sample variance is unchanged by adding a constant to every entry. -/
theorem sampleVar_map_add (xs : List ℝ) (c : ℝ) :
    sampleVar (xs.map fun x => x + c) = sampleVar xs := by
  rcases eq_or_ne xs [] with rfl | h
  · simp
  · simp only [sampleVar, List.length_map, List.map_map, mean_map_add xs c h]
    congr 1
    have he : ((fun y => (y - (mean xs + c)) ^ 2) ∘ fun x => x + c) =
        fun x : ℝ => (x - mean xs) ^ 2 := by
      funext x
      simp only [Function.comp_apply]
      ring
    rw [he]

/-- Sample variance scales with the square of a uniform factor. -/
theorem sampleVar_map_mul (xs : List ℝ) (c : ℝ) :
    sampleVar (xs.map fun x => c * x) = c ^ 2 * sampleVar xs := by
  simp only [sampleVar, List.length_map, List.map_map, mean_map_mul]
  have he : ((fun y => (y - c * mean xs) ^ 2) ∘ fun x => c * x) =
      fun x : ℝ => c ^ 2 * (x - mean xs) ^ 2 := by
    funext x
    simp only [Function.comp_apply]
    ring
  rw [he, sum_map_mul_const xs (c ^ 2) (fun x => (x - mean xs) ^ 2),
    mul_div_assoc]

theorem score_scale_aux (c : ℝ) (hc : 0 ≤ c) (vx vz : ℝ) :
    Real.sqrt (Real.sqrt (c ^ 2 * vx) ^ 2 + Real.sqrt (c ^ 2 * vz) ^ 2) =
      c * Real.sqrt (Real.sqrt vx ^ 2 + Real.sqrt vz ^ 2) := by
  rw [Real.sqrt_mul (sq_nonneg c) vx, Real.sqrt_mul (sq_nonneg c) vz,
    Real.sqrt_sq hc]
  have h2 : (c * Real.sqrt vx) ^ 2 + (c * Real.sqrt vz) ^ 2 =
      c ^ 2 * (Real.sqrt vx ^ 2 + Real.sqrt vz ^ 2) := by ring
  rw [h2, Real.sqrt_mul (sq_nonneg c), Real.sqrt_sq hc]

/-- C6: on a group of at least two observations the consistency score is
unchanged by adding one constant to all horizontal values and another to all
vertical values, while scaling all movement values by a positive factor c
multiplies the score by c; in particular the feet-to-inches conversion by
12 multiplies the score by 12. -/
theorem C6_translation_scaling (g : List Obs) (a b c : ℝ)
    (h : 2 ≤ g.length) (hc : 0 < c) :
    overall_consistency_score (g.map (transObs a b)) =
      overall_consistency_score g ∧
    overall_consistency_score (g.map (scaleObs c)) =
      Option.map (fun v => c * v) (overall_consistency_score g) ∧
    overall_consistency_score (g.map (scaleObs 12)) =
      Option.map (fun v => 12 * v) (overall_consistency_score g) := by
  have hne : g ≠ [] := by
    intro e
    rw [e] at h
    simp at h
  have hxT : (g.map (transObs a b)).map Obs.pfx_x =
      (g.map Obs.pfx_x).map fun x => x + a := by
    simp only [List.map_map]
    rfl
  have hzT : (g.map (transObs a b)).map Obs.pfx_z =
      (g.map Obs.pfx_z).map fun x => x + b := by
    simp only [List.map_map]
    rfl
  have hscale : ∀ d : ℝ, 0 < d →
      overall_consistency_score (g.map (scaleObs d)) =
        Option.map (fun v => d * v) (overall_consistency_score g) := by
    intro d hd
    have hxS : (g.map (scaleObs d)).map Obs.pfx_x =
        (g.map Obs.pfx_x).map fun x => d * x := by
      simp only [List.map_map]
      rfl
    have hzS : (g.map (scaleObs d)).map Obs.pfx_z =
        (g.map Obs.pfx_z).map fun x => d * x := by
      simp only [List.map_map]
      rfl
    rw [overall_consistency_score_of_le _ (by simpa using h),
      overall_consistency_score_of_le _ h, hxS, hzS,
      sampleVar_map_mul, sampleVar_map_mul, Option.map_some']
    rw [score_scale_aux d hd.le]
  refine ⟨?_, hscale c hc, hscale 12 (by norm_num)⟩
  rw [overall_consistency_score_of_le _ (by simpa using h),
    overall_consistency_score_of_le _ h, hxT, hzT,
    sampleVar_map_add, sampleVar_map_add]

/-- C6 witness: on the concrete example group (two rows), translating by 5
and 7 keeps the score and scaling by 12 multiplies the score by 12. -/
theorem C6_translation_scaling_witness :
    (2 ≤ exampleGroup.length) ∧ ((0 : ℝ) < 12) ∧
    overall_consistency_score (exampleGroup.map (transObs 5 7)) =
      overall_consistency_score exampleGroup ∧
    overall_consistency_score (exampleGroup.map (scaleObs 12)) =
      Option.map (fun v => 12 * v) (overall_consistency_score exampleGroup) := by
  refine ⟨by simp [exampleGroup], by norm_num, ?_, ?_⟩
  · exact (C6_translation_scaling exampleGroup 5 7 12
      (by simp [exampleGroup]) (by norm_num)).1
  · exact (C6_translation_scaling exampleGroup 5 7 12
      (by simp [exampleGroup]) (by norm_num)).2.1

end PublicBaseball
